import Mathlib

/-!
Verification development for the `mcping` Minecraft Server-List-Ping client
(`pkg/pinging/ping.go`).  The wire codec is embedded shallowly: Go byte
slices become `List Nat` (each element a byte value), Go `uint64`
arithmetic becomes `Nat` arithmetic reduced `% 2^64` where the Go code can
wrap, Go `int`/`int16` become `Int` with explicit two's-complement
truncation, and each fallible step returns the same `(value, error)`
shape as the Go function it models.  `encoding/json.Unmarshal` is an
external stdlib dependency; functions that call it are parameterised by an
arbitrary decoder `J : List Nat → Option PingResponse` so every theorem
holds for the real JSON decoder in particular.
-/

/-- Byte list standing for a Go `[]byte` / `string` (each entry one byte). -/
abbrev Bytes := List Nat

/-- The fixed SLP protocol version constant from `ping.go` (`protocolVersion = 0x2F`). -/
def protocolVersion : Nat := 0x2F

/-- Function `encodeVarint` from `ping.go` (the goprotobuf loop): emit 7 bits per
byte, low group first, continuation bit `0x80` on all but the last byte.
The Go loop `for n = 0; x > 127; n++ { buf[n] = 0x80|uint8(x&0x7F); x >>= 7 }`
followed by `buf[n] = uint8(x)` is written recursively. -/
def encodeVarint (x : Nat) : Bytes :=
  if 127 < x then (0x80 ||| (x &&& 0x7F)) :: encodeVarint (x >>> 7)
  else [x]
termination_by x
decreasing_by
  simp only [Nat.shiftRight_eq_div_pow]
  omega

/-- Loop body of Go stdlib `encoding/binary.Uvarint` (the slice decoder used
on the unframed payload in `readPong`): `i` is the byte index, `x` the
accumulator, `sh` the current shift.  Returns `(value, n)` exactly as the Go
function does: `n > 0` bytes consumed on success, `n = 0` when the buffer
ends inside a varint, `n < 0` on overflow (more than 10 bytes, or a 10th
byte above 1).  Accumulation wraps `% 2^64` as Go `uint64` does. -/
def uvarintLoop : Bytes → Nat → Nat → Nat → Nat × Int
  | [], _, _, _ => (0, 0)
  | b :: rest, i, x, sh =>
    if i = 10 then (0, -(Int.ofNat (i + 1)))
    else if b < 0x80 then
      if i = 9 ∧ 1 < b then (0, -(Int.ofNat (i + 1)))
      else ((x ||| (b <<< sh)) % 2 ^ 64, Int.ofNat (i + 1))
    else uvarintLoop rest (i + 1) ((x ||| ((b &&& 0x7F) <<< sh)) % 2 ^ 64) (sh + 7)

/-- Go stdlib `encoding/binary.Uvarint` on a byte slice. -/
def Uvarint (buf : Bytes) : Nat × Int :=
  uvarintLoop buf 0 0 0

/-- Loop body of Go stdlib `encoding/binary.ReadUvarint` (the streaming
decoder used on the framed length header in `readPong`): reads bytes one at
a time, `none` models the error return (EOF inside the varint, or
overflow).  On success returns the decoded value and the unread remainder
of the stream. -/
def readUvarintLoop : Bytes → Nat → Nat → Nat → Option (Nat × Bytes)
  | [], _, _, _ => none
  | b :: rest, i, x, sh =>
    if i = 10 then none
    else if b < 0x80 then
      if i = 9 ∧ 1 < b then none
      else some ((x ||| (b <<< sh)) % 2 ^ 64, rest)
    else readUvarintLoop rest (i + 1) ((x ||| ((b &&& 0x7F) <<< sh)) % 2 ^ 64) (sh + 7)

/-- Go stdlib `encoding/binary.ReadUvarint` over a byte stream. -/
def readUvarint (s : Bytes) : Option (Nat × Bytes) :=
  readUvarintLoop s 0 0 0

/-- Function `makePacket` from `ping.go`: prefix the payload with its own byte
length encoded as a varint (`buf.Write(encodeVarint(uint64(len(pl.Bytes()))))`
then `buf.Write(pl.Bytes())`). -/
def makePacket (pl : Bytes) : Bytes :=
  encodeVarint pl.length ++ pl

/-- Go `int16(iPort)`: two's-complement truncation of an `int` to 16 bits. -/
def toInt16 (x : Int) : Int :=
  let r := x % 65536
  if r < 32768 then r else r - 65536

/-- Model of `binary.Write(pl, binary.BigEndian, int16(iPort))` from `sendHandShake`:
the two big-endian bytes of the 16-bit two's-complement pattern of `x`. -/
def int16BE (x : Int) : Bytes :=
  let u := (toInt16 x % 65536).toNat
  [u / 256, u % 256]

/-- The handshake payload built in `sendHandShake`, in write order:
packet id `0x00`, protocol version `0x2F`, varint host length, host bytes,
big-endian signed 16-bit port, next-state byte `0x01`. -/
def handshakePayload (host : Bytes) (iPort : Int) : Bytes :=
  0x00 :: protocolVersion :: (encodeVarint host.length ++ host ++ int16BE iPort ++ [0x01])

/-- Index of the first occurrence of byte `b` (Go `byteIndex`). -/
def byteIndex : Bytes → Nat → Option Nat
  | [], _ => none
  | c :: rest, b => if c = b then some 0 else (byteIndex rest b).map (· + 1)

/-- Index of the last occurrence of byte `b` (Go `last` in `net/ipsock.go`). -/
def lastByteIndex : Bytes → Nat → Option Nat
  | [], _ => none
  | c :: rest, b =>
    match lastByteIndex rest b with
    | some j => some (j + 1)
    | none => if c = b then some 0 else none

/-- Go stdlib `net.SplitHostPort`, called by `sendHandShake`: split
`host:port`, with the bracket rules for IPv6 literals.  Error strings are
reworded (the caller only panics on them) but the error/success split and
the returned slices follow the Go source byte for byte. -/
def splitHostPort (hostport : Bytes) : Except String (Bytes × Bytes) :=
  match lastByteIndex hostport 58 with
  | none => .error "missing port in address"
  | some i =>
    if hostport.head? = some 91 then
      match byteIndex hostport 93 with
      | none => .error "missing closing bracket in address"
      | some e =>
        if e + 1 = hostport.length then .error "missing port in address"
        else if e + 1 = i then
          if (byteIndex (hostport.drop 1) 91).isSome then .error "unexpected open bracket"
          else if (byteIndex (hostport.drop (e + 1)) 93).isSome then .error "unexpected close bracket"
          else .ok ((hostport.drop 1).take (e - 1), hostport.drop (i + 1))
        else if hostport.get? (e + 1) = some 58 then .error "too many colons in address"
        else .error "missing port in address"
    else
      if (byteIndex (hostport.take i) 58).isSome then .error "too many colons in address"
      else if (byteIndex hostport 91).isSome then .error "unexpected open bracket"
      else if (byteIndex hostport 93).isSome then .error "unexpected close bracket"
      else .ok (hostport.take i, hostport.drop (i + 1))

/-- Decimal value of a non-empty all-digit byte string, `none` otherwise. -/
def digitsVal (l : Bytes) : Option Nat :=
  match l with
  | [] => none
  | _ => l.foldl
      (fun acc b =>
        match acc with
        | none => none
        | some n => if 48 ≤ b ∧ b ≤ 57 then some (n * 10 + (b - 48)) else none)
      (some 0)

/-- Go stdlib `strconv.Atoi`, called by `sendHandShake`: optional sign,
then a non-empty run of decimal digits, rejected when the signed value
falls outside the 64-bit `int` range. -/
def atoi (s : Bytes) : Except String Int :=
  match s with
  | [] => .error "invalid syntax"
  | b :: rest =>
    let signDigits : Bool × Bytes :=
      if b = 45 then (true, rest) else if b = 43 then (false, rest) else (false, s)
    match digitsVal signDigits.2 with
    | none => .error "invalid syntax"
    | some n =>
      let v : Int := if signDigits.1 then -(n : Int) else (n : Int)
      if v < -(2 ^ 63) ∨ 2 ^ 63 - 1 < v then .error "value out of range" else .ok v

/-- Observable outcome of `sendHandShake`: the Go function panics on a
split/parse failure (`panic(err)`), otherwise it writes one framed packet
to the connection. -/
inductive HandshakeResult where
  | panics : HandshakeResult
  | sends : Bytes → HandshakeResult
deriving DecidableEq, Repr

/-- Function `sendHandShake` from `ping.go` with the connection write modeled as
succeeding: split the `host:port` argument, parse the port, build the
handshake payload and frame it.  Both failure paths call Go `panic`. -/
def sendHandShake (hostport : Bytes) : HandshakeResult :=
  match splitHostPort hostport with
  | .error _ => .panics
  | .ok (host, portStr) =>
    match atoi portStr with
    | .error _ => .panics
    | .ok iPort => .sends (makePacket (handshakePayload host iPort))

/-- Function `sendStatusRequest` from `ping.go`: a framed single zero byte. -/
def sendStatusRequest : Bytes :=
  makePacket [0x00]

/-- JSON value as Go `encoding/json` produces for an `interface\x7b\x7d`
field; numbers are kept as a decimal mantissa/exponent pair instead of the
Go `float64`, which no claim inspects. -/
inductive Json where
  | null : Json
  | bool : Bool → Json
  | num : Int → Int → Json
  | str : Bytes → Json
  | arr : List Json → Json
  | obj : List (Bytes × Json) → Json

/-- Struct `Version` from `ping.go`. -/
structure Version where
  name : Bytes
  protocol : Int
deriving DecidableEq, Repr

/-- Struct `Players` from `ping.go`; `Sample []map[string]string` becomes a
list of association lists. -/
structure Players where
  max : Int
  online : Int
  sample : List (List (Bytes × Bytes))
deriving DecidableEq, Repr

/-- Struct `PingResponse` from `ping.go`. -/
structure PingResponse where
  version : Version
  players : Players
  description : Json
  favicon : Bytes

/-- Function `readPong` from `ping.go`, parameterised by the JSON decoder `J`
standing for `json.Unmarshal` into `PingResponse`.  Mirrors the Go source
line by line: read the varint length header with `binary.ReadUvarint`
(error: "could not read length"), read exactly that many payload bytes
with `io.ReadFull` (error: "could not read length given by length
header"), decode the packet-id varint with `binary.Uvarint` rejecting
`n <= 0`, decode the string-length varint the same way, and hand every
remaining byte to the JSON decoder.  The result is the Go pair
`(*PingResponse, error)`.

This model covers the non-panicking executions: it assumes the
`pl := make([]byte, nl)` allocation succeeds, which holds exactly when the
decoded `nl` is within the Go runtime's slice-allocation limit.  For a
declared length beyond that limit the real program crashes with a
`makeslice: len out of range` panic instead of returning an error;
`readPongFull` below makes that panic path explicit, and
`readPongFull_agrees` shows the two models coincide whenever the declared
length is allocatable. -/
def readPong (J : Bytes → Option PingResponse) (stream : Bytes) :
    Option PingResponse × Option String :=
  match readUvarint stream with
  | none => (none, some "could not read length")
  | some (nl, rest) =>
    if rest.length < nl then (none, some "could not read length given by length header")
    else
      let pl := rest.take nl
      let n := (Uvarint pl).2
      if n ≤ 0 then (none, some "could not read packet id")
      else
        let n2 := (Uvarint (pl.drop n.toNat)).2
        if n2 ≤ 0 then (none, some "could not read string varint")
        else
          match J (pl.drop (n + n2).toNat) with
          | none => (none, some "could not read pong json")
          | some res => (some res, none)

/-- Observable outcome of `readPong` including the Go runtime panic: the
process crashes at `make([]byte, nl)`, or the Go pair
`(*PingResponse, error)` is returned. -/
inductive ReadPongOutcome where
  | panics : ReadPongOutcome
  | result : Option PingResponse → Option String → ReadPongOutcome

/-- Function `readPong` from `ping.go` with the runtime's `makeslice`
panic made explicit.  Modelled from the Go runtime: `make([]byte, nl)`
panics with `makeslice: len out of range` whenever `nl` exceeds the
runtime's allocation limit (`maxAlloc`, platform dependent, never more
than the maximum `int`, `2 ^ 63 - 1`); for an allocatable `nl` the
function proceeds exactly as `readPong`. -/
def readPongFull (maxAlloc : Nat) (J : Bytes → Option PingResponse) (stream : Bytes) :
    ReadPongOutcome :=
  match readUvarint stream with
  | none => .result none (some "could not read length")
  | some (nl, rest) =>
    if maxAlloc < nl then .panics
    else if rest.length < nl then
      .result none (some "could not read length given by length header")
    else
      let pl := rest.take nl
      let n := (Uvarint pl).2
      if n ≤ 0 then .result none (some "could not read packet id")
      else
        let n2 := (Uvarint (pl.drop n.toNat)).2
        if n2 ≤ 0 then .result none (some "could not read string varint")
        else
          match J (pl.drop (n + n2).toNat) with
          | none => .result none (some "could not read pong json")
          | some res => .result (some res) none

/-- Decimal digits of a natural number, as bytes (`fmt` verb `%d`). -/
def natToDec (n : Nat) : Bytes :=
  if n < 10 then [48 + n] else natToDec (n / 10) ++ [48 + n % 10]
termination_by n
decreasing_by omega

/-- Go `fmt.Sprintf("%d", p)` for an `int`. -/
def intToDec (p : Int) : Bytes :=
  if p < 0 then 45 :: natToDec p.natAbs else natToDec p.toNat

/-- Observable outcome of `Ping`: either the process panics inside
`sendHandShake`, or the Go pair `(*PingResponse, error)` is returned. -/
inductive PingResult where
  | panics : PingResult
  | result : Option PingResponse → Option String → PingResult

/-- Function `Ping` from `ping.go` with the dial and the two connection writes
modeled as succeeding (their failure paths return early with I/O errors
that no claim concerns): format `address:port`, send the handshake (which
may panic), send the status request, then decode the server's inbound
stream with `readPong`. -/
def Ping (J : Bytes → Option PingResponse) (address : Bytes) (port : Int)
    (inbound : Bytes) : PingResult :=
  let host := address ++ 58 :: intToDec port
  match sendHandShake host with
  | .panics => .panics
  | .sends _ =>
    match readPong J inbound with
    | (res, err) => .result res err

/-! ### Varint codec lemmas -/

/-- Disjoint bit-or is addition: with `a` below `2 ^ s`, or-ing in a value
shifted left by `s` is plain addition. -/
theorem lor_shift_add (a b s : Nat) (ha : a < 2 ^ s) :
    a ||| b <<< s = a + b * 2 ^ s := by
  rw [Nat.shiftLeft_eq, Nat.lor_comm, Nat.mul_comm b (2 ^ s), ← Nat.mul_add_lt_is_or ha]
  ring

theorem encodeVarint_le {x : Nat} (h : x ≤ 127) : encodeVarint x = [x] := by
  rw [encodeVarint]
  simp [Nat.not_lt.mpr h]

/-- The continuation byte written by `encodeVarint` is `x % 128 + 128`. -/
theorem encodeVarint_gt {x : Nat} (h : 127 < x) :
    encodeVarint x = (x % 128 + 128) :: encodeVarint (x >>> 7) := by
  rw [encodeVarint, if_pos h]
  have h127 : (127 : Nat) = 2 ^ 7 - 1 := by norm_num
  have hand : x &&& 127 = x % 128 := by
    rw [h127, Nat.and_pow_two_sub_one_eq_mod]
  have hor : 128 ||| x % 128 = x % 128 + 128 := by
    have := lor_shift_add (x % 128) 1 7 (Nat.mod_lt _ (by norm_num))
    simp [Nat.shiftLeft_eq] at this
    rw [Nat.lor_comm]
    omega
  rw [hand, hor]

theorem one_le_length_encodeVarint (x : Nat) : 1 ≤ (encodeVarint x).length := by
  by_cases h : 127 < x
  · rw [encodeVarint_gt h]; simp
  · rw [encodeVarint_le (by omega)]; simp

theorem length_encodeVarint_le (k : Nat) :
    ∀ x, x < 2 ^ (7 * (k + 1)) → (encodeVarint x).length ≤ k + 1 := by
  induction k with
  | zero =>
    intro x hx
    rw [encodeVarint_le (by norm_num at hx; omega)]
    simp
  | succ k ih =>
    intro x hx
    by_cases h : 127 < x
    · rw [encodeVarint_gt h]
      simp only [List.length_cons]
      have hdiv : x >>> 7 < 2 ^ (7 * (k + 1)) := by
        rw [Nat.shiftRight_eq_div_pow]
        apply Nat.div_lt_of_lt_mul
        have : 2 ^ (7 * (k + 1)) * 2 ^ 7 = 2 ^ (7 * (k + 1 + 1)) := by
          rw [← pow_add]; ring_nf
        omega
      have := ih _ hdiv
      omega
    · rw [encodeVarint_le (by omega)]
      simp

theorem length_encodeVarint_le_ten {x : Nat} (hx : x < 2 ^ 64) :
    (encodeVarint x).length ≤ 10 := by
  have := length_encodeVarint_le 9 x (lt_of_lt_of_le hx (by norm_num))
  omega

/-- Core invariant of the Go `binary.Uvarint` loop run on an encoded value
followed by arbitrary trailing bytes. -/
theorem uvarintLoop_encode (x : Nat) :
    ∀ (rest : Bytes) (i acc sh : Nat), sh = 7 * i → acc < 2 ^ sh →
    acc + x * 2 ^ sh < 2 ^ 64 → i + (encodeVarint x).length ≤ 10 →
    uvarintLoop (encodeVarint x ++ rest) i acc sh =
      (acc + x * 2 ^ sh, Int.ofNat (i + (encodeVarint x).length)) := by
  induction x using Nat.strong_induction_on with
  | _ x ih =>
    intro rest i acc sh hsh hacc hlt hlen
    by_cases h : 127 < x
    · rw [encodeVarint_gt h] at hlen ⊢
      simp only [List.length_cons] at hlen
      have hone := one_le_length_encodeVarint (x >>> 7)
      rw [List.cons_append]
      simp only [uvarintLoop]
      rw [if_neg (by omega), if_neg (by omega)]
      have hand : (x % 128 + 128) &&& 127 = x % 128 := by
        rw [show (127 : Nat) = 2 ^ 7 - 1 by norm_num, Nat.and_pow_two_sub_one_eq_mod]
        omega
      have hmodle : x % 128 * 2 ^ sh ≤ x * 2 ^ sh :=
        Nat.mul_le_mul_right _ (Nat.mod_le x 128)
      rw [hand, lor_shift_add _ _ _ hacc, Nat.mod_eq_of_lt (by omega)]
      have hx7 : x >>> 7 = x / 128 := by
        rw [Nat.shiftRight_eq_div_pow]
      have hpow : 2 ^ (sh + 7) = 2 ^ sh * 128 := by
        rw [pow_add]; norm_num
      have hacc' : acc + x % 128 * 2 ^ sh < 2 ^ (sh + 7) := by
        have h1 : x % 128 * 2 ^ sh ≤ 127 * 2 ^ sh :=
          Nat.mul_le_mul_right _ (by omega)
        omega
      have hsum : acc + x % 128 * 2 ^ sh + x / 128 * 2 ^ (sh + 7) = acc + x * 2 ^ sh := by
        rw [hpow]
        have hdm : x % 128 + 128 * (x / 128) = x := Nat.mod_add_div x 128
        nlinarith [hdm]
      have hlt' : acc + x % 128 * 2 ^ sh + x >>> 7 * 2 ^ (sh + 7) < 2 ^ 64 := by
        rw [hx7, hsum]; exact hlt
      have := ih (x >>> 7)
        (by rw [hx7]; exact Nat.div_lt_self (by omega) (by norm_num))
        rest (i + 1) (acc + x % 128 * 2 ^ sh) (sh + 7)
        (by omega) hacc' hlt' (by omega)
      rw [this, hx7, hsum]
      simp only [List.length_cons, Prod.mk.injEq]
      refine ⟨trivial, ?_⟩
      congr 1
      omega
    · rw [encodeVarint_le (by omega)] at hlen ⊢
      simp only [List.length_singleton] at hlen
      rw [List.cons_append]
      simp only [uvarintLoop]
      rw [if_neg (by omega), if_pos (by omega : x < 128)]
      have h9 : ¬(i = 9 ∧ 1 < x) := by
        rintro ⟨rfl, hx1⟩
        have hsh63 : sh = 63 := by omega
        subst hsh63
        have : 2 * 2 ^ 63 ≤ x * 2 ^ 63 := Nat.mul_le_mul_right _ hx1
        norm_num at this hlt
        omega
      rw [if_neg h9, lor_shift_add _ _ _ hacc, Nat.mod_eq_of_lt hlt]
      simp

/-- Core invariant of the Go `binary.ReadUvarint` loop: reading an encoded
value from a stream consumes exactly its bytes and leaves the rest. -/
theorem readUvarintLoop_encode (x : Nat) :
    ∀ (rest : Bytes) (i acc sh : Nat), sh = 7 * i → acc < 2 ^ sh →
    acc + x * 2 ^ sh < 2 ^ 64 → i + (encodeVarint x).length ≤ 10 →
    readUvarintLoop (encodeVarint x ++ rest) i acc sh = some (acc + x * 2 ^ sh, rest) := by
  induction x using Nat.strong_induction_on with
  | _ x ih =>
    intro rest i acc sh hsh hacc hlt hlen
    by_cases h : 127 < x
    · rw [encodeVarint_gt h] at hlen ⊢
      simp only [List.length_cons] at hlen
      have hone := one_le_length_encodeVarint (x >>> 7)
      rw [List.cons_append]
      simp only [readUvarintLoop]
      rw [if_neg (by omega), if_neg (by omega)]
      have hand : (x % 128 + 128) &&& 127 = x % 128 := by
        rw [show (127 : Nat) = 2 ^ 7 - 1 by norm_num, Nat.and_pow_two_sub_one_eq_mod]
        omega
      have hmodle : x % 128 * 2 ^ sh ≤ x * 2 ^ sh :=
        Nat.mul_le_mul_right _ (Nat.mod_le x 128)
      rw [hand, lor_shift_add _ _ _ hacc, Nat.mod_eq_of_lt (by omega)]
      have hx7 : x >>> 7 = x / 128 := by
        rw [Nat.shiftRight_eq_div_pow]
      have hpow : 2 ^ (sh + 7) = 2 ^ sh * 128 := by
        rw [pow_add]; norm_num
      have hacc' : acc + x % 128 * 2 ^ sh < 2 ^ (sh + 7) := by
        have h1 : x % 128 * 2 ^ sh ≤ 127 * 2 ^ sh :=
          Nat.mul_le_mul_right _ (by omega)
        omega
      have hsum : acc + x % 128 * 2 ^ sh + x / 128 * 2 ^ (sh + 7) = acc + x * 2 ^ sh := by
        rw [hpow]
        have hdm : x % 128 + 128 * (x / 128) = x := Nat.mod_add_div x 128
        nlinarith [hdm]
      have hlt' : acc + x % 128 * 2 ^ sh + x >>> 7 * 2 ^ (sh + 7) < 2 ^ 64 := by
        rw [hx7, hsum]; exact hlt
      have := ih (x >>> 7)
        (by rw [hx7]; exact Nat.div_lt_self (by omega) (by norm_num))
        rest (i + 1) (acc + x % 128 * 2 ^ sh) (sh + 7)
        (by omega) hacc' hlt' (by omega)
      rw [this, hx7, hsum]
    · rw [encodeVarint_le (by omega)] at hlen ⊢
      simp only [List.length_singleton] at hlen
      rw [List.cons_append]
      simp only [readUvarintLoop]
      rw [if_neg (by omega), if_pos (by omega : x < 128)]
      have h9 : ¬(i = 9 ∧ 1 < x) := by
        rintro ⟨rfl, hx1⟩
        have hsh63 : sh = 63 := by omega
        subst hsh63
        have : 2 * 2 ^ 63 ≤ x * 2 ^ 63 := Nat.mul_le_mul_right _ hx1
        norm_num at this hlt
        omega
      rw [if_neg h9, lor_shift_add _ _ _ hacc, Nat.mod_eq_of_lt hlt]
      simp

/-- Result of `binary.Uvarint` run on an encoded value plus arbitrary trailing bytes
returns the value and the encoded length. -/
theorem Uvarint_encode_append {x : Nat} (rest : Bytes) (hx : x < 2 ^ 64) :
    Uvarint (encodeVarint x ++ rest) = (x, Int.ofNat (encodeVarint x).length) := by
  have := uvarintLoop_encode x rest 0 0 0 (by omega) (by norm_num)
    (by simpa using hx) (by simpa using length_encodeVarint_le_ten hx)
  simpa [Uvarint] using this

/-- Result of `binary.ReadUvarint` run on an encoded value followed by the rest of a
stream returns the value and the remainder. -/
theorem readUvarint_encode {x : Nat} (rest : Bytes) (hx : x < 2 ^ 64) :
    readUvarint (encodeVarint x ++ rest) = some (x, rest) := by
  have := readUvarintLoop_encode x rest 0 0 0 (by omega) (by norm_num)
    (by simpa using hx) (by simpa using length_encodeVarint_le_ten hx)
  simpa [readUvarint] using this

/-! ### Response decoder lemmas -/

/-- Unfolding `readPong` on a correctly framed payload whose two leading
varints are well formed: the two varints are skipped and the JSON decoder
receives exactly the remaining bytes. -/
theorem readPong_frame (J : Bytes → Option PingResponse) (pid M : Nat) (body : Bytes)
    (hpid : pid < 2 ^ 64) (hM : M < 2 ^ 64)
    (hN : (encodeVarint pid ++ (encodeVarint M ++ body)).length < 2 ^ 64) :
    readPong J (makePacket (encodeVarint pid ++ (encodeVarint M ++ body))) =
      match J body with
      | none => (none, some "could not read pong json")
      | some res => (some res, none) := by
  have hUv1 := Uvarint_encode_append (x := pid) (encodeVarint M ++ body) hpid
  have hUv2 := Uvarint_encode_append (x := M) body hM
  have hRd := readUvarint_encode (x := (encodeVarint pid ++ (encodeVarint M ++ body)).length)
    (encodeVarint pid ++ (encodeVarint M ++ body)) hN
  have h1p := one_le_length_encodeVarint pid
  have h1M := one_le_length_encodeVarint M
  simp only [Int.ofNat_eq_coe] at hUv1 hUv2
  simp only [readPong, makePacket, hRd]
  rw [if_neg (lt_irrefl _)]
  simp only [List.take_length, hUv1]
  rw [if_neg (by omega)]
  simp only [Int.toNat_ofNat, List.drop_left, hUv2]
  rw [if_neg (by omega)]
  have htn : ((List.length (encodeVarint pid) : Int) + (List.length (encodeVarint M) : Int)).toNat
      = (encodeVarint pid).length + (encodeVarint M).length := by omega
  rw [htn, ← List.append_assoc, List.drop_left' (by simp)]

/-- Agreement of the two response-decoder models: whenever the decoded
length header is within the allocation limit, the panic-aware
`readPongFull` returns exactly the `(*PingResponse, error)` pair computed
by `readPong`. -/
theorem readPongFull_agrees (maxAlloc : Nat) (J : Bytes → Option PingResponse)
    (stream : Bytes)
    (h : ∀ nl rest, readUvarint stream = some (nl, rest) → nl ≤ maxAlloc) :
    readPongFull maxAlloc J stream
      = ReadPongOutcome.result (readPong J stream).1 (readPong J stream).2 := by
  simp only [readPongFull, readPong]
  cases hru : readUvarint stream with
  | none => simp
  | some p =>
    obtain ⟨nl, rest⟩ := p
    simp only
    rw [if_neg (not_lt.mpr (h nl rest hru))]
    split_ifs with h1 h2 h3
    · rfl
    · rfl
    · rfl
    · cases hJ : J ((rest.take nl).drop
        ((Uvarint (rest.take nl)).2
          + (Uvarint ((rest.take nl).drop (Uvarint (rest.take nl)).2.toNat)).2).toNat) with
      | none => simp [hJ]
      | some res => simp [hJ]

/-- The Go `binary.Uvarint` loop on a buffer whose first `10 - i` bytes all
carry the continuation bit returns `n ≤ 0` (no value), and a strictly
negative `n` (overflow) when the buffer is long enough to reach the
11-byte cap. -/
theorem uvarintLoop_cont (buf : Bytes) :
    ∀ i acc sh, i ≤ 10 → (∀ b ∈ buf.take (10 - i), 128 ≤ b) →
    (uvarintLoop buf i acc sh).2 ≤ 0 ∧
      (10 - i < buf.length → (uvarintLoop buf i acc sh).2 < 0) := by
  induction buf with
  | nil =>
    intro i acc sh _ _
    simp [uvarintLoop]
  | cons b rest ih =>
    intro i acc sh hi hcont
    simp only [uvarintLoop]
    by_cases h10 : i = 10
    · rw [if_pos h10]
      have hneg : -(Int.ofNat (i + 1)) < 0 := by
        simp only [Int.ofNat_eq_coe]
        omega
      exact ⟨le_of_lt hneg, fun _ => hneg⟩
    · rw [if_neg h10]
      have hb : 128 ≤ b := by
        apply hcont
        have h1 : 10 - i = (9 - i) + 1 := by omega
        rw [h1, List.take_succ_cons]
        exact List.mem_cons_self _ _
      rw [if_neg (by omega)]
      have hrec := ih (i + 1) ((acc ||| ((b &&& 0x7F) <<< sh)) % 2 ^ 64) (sh + 7) (by omega)
        (fun c hc => hcont c (by
          have h1 : 10 - i = (10 - (i + 1)) + 1 := by omega
          rw [h1, List.take_succ_cons]
          exact List.mem_cons_of_mem _ hc))
      refine ⟨hrec.1, fun hlen => hrec.2 ?_⟩
      simp only [List.length_cons] at hlen
      omega

/-! ### Claim theorems -/

/-- C1: for every unsigned 64-bit integer `x` (including 0 and the maximum
value), decoding the byte sequence produced by the varint encoder yields
exactly `(x, len(Encode(x)))`: encode followed by decode round-trips and
reports the encoded length as the bytes consumed. -/
theorem varint_roundtrip (x : Nat) (hx : x < 2 ^ 64) :
    Uvarint (encodeVarint x) = (x, Int.ofNat (encodeVarint x).length) := by
  have h := Uvarint_encode_append (x := x) [] hx
  simpa using h

theorem varint_roundtrip_witness :
    2 ^ 64 - 1 < 2 ^ 64 ∧
    Uvarint (encodeVarint (2 ^ 64 - 1))
      = (2 ^ 64 - 1, Int.ofNat (encodeVarint (2 ^ 64 - 1)).length) :=
  ⟨by norm_num, varint_roundtrip (2 ^ 64 - 1) (by norm_num)⟩

/-- C4: for every payload `p`, `makePacket p` is `encodeVarint p.length`
concatenated with `p`; the length prefix depends on the payload only
through its length (payloads of equal length get byte-identical prefixes),
and the payload bytes are copied verbatim after the prefix. -/
theorem makePacket_frame (p q : Bytes) :
    makePacket p = encodeVarint p.length ++ p ∧
    (p.length = q.length →
      (makePacket p).take (encodeVarint p.length).length
        = (makePacket q).take (encodeVarint q.length).length) ∧
    (makePacket p).drop (encodeVarint p.length).length = p := by
  refine ⟨rfl, fun h => ?_, ?_⟩
  · simp [makePacket, h, List.take_left]
  · simp [makePacket, List.drop_left]

theorem makePacket_frame_witness :
    makePacket [5] = encodeVarint (List.length [5]) ++ [5] ∧
    (makePacket [5]).take (encodeVarint (List.length [5])).length
      = (makePacket [9]).take (encodeVarint (List.length [9])).length ∧
    (makePacket [5]).drop (encodeVarint (List.length [5])).length = [5] :=
  ⟨(makePacket_frame [5] [9]).1, (makePacket_frame [5] [9]).2.1 (by decide),
    (makePacket_frame [5] [9]).2.2⟩

/-- C10: the two port bytes written into the handshake packet are the
port value modulo `2 ^ 16` in big-endian order; ports in `[32768, 65535]`
become negative as a signed 16-bit value but keep the wire bytes
`[port >>> 8 &&& 0xFF, port &&& 0xFF]`, and ports at or above `2 ^ 16`
are silently truncated to their low 16 bits. -/
theorem int16BE_mod (p : Int) :
    int16BE p = [(p % 65536).toNat / 256, (p % 65536).toNat % 256] ∧
    (32768 ≤ p % 65536 → toInt16 p < 0) ∧
    (0 ≤ p → int16BE p = [p.toNat >>> 8 &&& 255, p.toNat &&& 255]) := by
  have hkey : (toInt16 p % 65536).toNat = (p % 65536).toNat := by
    simp only [toInt16]
    split
    · omega
    · omega
  refine ⟨?_, ?_, fun h0 => ?_⟩
  · simp only [int16BE, hkey]
  · intro h
    simp only [toInt16]
    split
    · omega
    · omega
  · have h8 : p.toNat >>> 8 = p.toNat / 256 := by
      rw [Nat.shiftRight_eq_div_pow]
    have ha : ∀ m : Nat, m &&& 255 = m % 256 := fun m => by
      rw [show (255 : Nat) = 2 ^ 8 - 1 by norm_num, Nat.and_pow_two_sub_one_eq_mod]
    simp only [int16BE, hkey, h8, ha]
    have e1 : (p % 65536).toNat / 256 = p.toNat / 256 % 256 := by omega
    have e2 : (p % 65536).toNat % 256 = p.toNat % 256 := by omega
    rw [e1, e2]

theorem int16BE_mod_witness :
    int16BE 40000 = [((40000 : Int) % 65536).toNat / 256, ((40000 : Int) % 65536).toNat % 256] ∧
    toInt16 40000 < 0 ∧
    int16BE 40000 = [(40000 : Int).toNat >>> 8 &&& 255, (40000 : Int).toNat &&& 255] :=
  ⟨(int16BE_mod 40000).1, (int16BE_mod 40000).2.1 (by norm_num),
    (int16BE_mod 40000).2.2 (by norm_num)⟩

/-- C5 counterexample: the bytes of `"localhost"` (no port) fail
`net.SplitHostPort`, and `sendHandShake` panics — the claimed recoverable
configuration error is never surfaced to the caller, the process crashes
instead. -/
theorem sendHandShake_config_error_cex :
    sendHandShake [108, 111, 99, 97, 108, 104, 111, 115, 116] = HandshakeResult.panics := by
  rfl

/-- C5 amended: for every caller-supplied `host:port` input that fails to
split into host and port, or whose port fails to parse as a number,
`sendHandShake` panics (crashing the process) before any bytes are written
to the connection; the failure is not returned to the caller as a
recoverable error. -/
theorem sendHandShake_panics_before_write (hp : Bytes)
    (h : (∃ e, splitHostPort hp = Except.error e) ∨
      ∃ host portStr e, splitHostPort hp = Except.ok (host, portStr)
        ∧ atoi portStr = Except.error e) :
    sendHandShake hp = HandshakeResult.panics := by
  rcases h with ⟨e, he⟩ | ⟨host, portStr, e, hok, he⟩
  · simp [sendHandShake, he]
  · simp [sendHandShake, hok, he]

theorem sendHandShake_panics_before_write_witness :
    (∃ host portStr e, splitHostPort [97, 58, 120] = Except.ok (host, portStr)
        ∧ atoi portStr = Except.error e) ∧
    sendHandShake [97, 58, 120] = HandshakeResult.panics :=
  ⟨⟨[97], [120], "invalid syntax", by rfl, by rfl⟩,
    sendHandShake_panics_before_write [97, 58, 120]
      (Or.inr ⟨[97], [120], "invalid syntax", by rfl, by rfl⟩)⟩

/-- C6 counterexample: at the concrete stream whose length header declares
`2 ^ 63` bytes (far past any sane bound) there is no invalid-length
failure: even under the largest allocation limit any platform can have
(`2 ^ 63 - 1`, the maximum `int`), the program panics at
`make([]byte, nl)` — a crash, not an error return — so the claimed
`InvalidLength` error is never produced. -/
theorem readPong_huge_length_panics_cex :
    readPongFull (2 ^ 63 - 1) (fun _ => none)
        [128, 128, 128, 128, 128, 128, 128, 128, 128, 1]
      = ReadPongOutcome.panics := by
  rfl

/-- C6 amended: `ping.go` has no plausibility check on the decoded length
header and never produces an invalid-length error.  A declared length
above the runtime's slice-allocation limit (platform dependent, at most
`2 ^ 63 - 1`) crashes the process with the `makeslice` panic from
`make([]byte, nl)`; an allocatable declared length is read optimistically,
failing with the `io.ReadFull` short-read error when the stream holds
fewer bytes than declared. -/
theorem readPong_no_length_check (maxAlloc : Nat) (J : Bytes → Option PingResponse)
    (nl : Nat) (rest : Bytes) (hmax : maxAlloc ≤ 2 ^ 63 - 1) (hnl : nl < 2 ^ 64) :
    (2 ^ 63 ≤ nl →
      readPongFull maxAlloc J (encodeVarint nl ++ rest) = ReadPongOutcome.panics) ∧
    (nl ≤ maxAlloc → rest.length < nl →
      readPongFull maxAlloc J (encodeVarint nl ++ rest)
        = ReadPongOutcome.result none
            (some "could not read length given by length header")) := by
  constructor
  · intro hbig
    simp only [readPongFull, readUvarint_encode rest hnl]
    rw [if_pos (by omega)]
  · intro hsmall hshort
    simp only [readPongFull, readUvarint_encode rest hnl]
    rw [if_neg (by omega), if_pos hshort]

theorem readPong_no_length_check_witness :
    (2 ^ 63 - 1 : Nat) ≤ 2 ^ 63 - 1 ∧ (2 ^ 63 : Nat) < 2 ^ 64 ∧
    readPongFull (2 ^ 63 - 1) (fun _ => none) (encodeVarint (2 ^ 63) ++ [37])
      = ReadPongOutcome.panics :=
  ⟨by norm_num, by norm_num,
    (readPong_no_length_check (2 ^ 63 - 1) (fun _ => none) (2 ^ 63) [37]
      (by norm_num) (by norm_num)).1 (by norm_num)⟩

/-- C2: for every host byte string and parsed port, the handshake encoder
produces exactly varint(payload length) followed by the varint packet id
`0x00`, the protocol-version byte `0x2F`, the varint host length, the host
bytes, the signed 16-bit big-endian port, and the next-state byte `0x01`,
in that order. -/
theorem sendHandShake_wire (hp host portStr : Bytes) (ip : Int)
    (hsplit : splitHostPort hp = Except.ok (host, portStr))
    (hatoi : atoi portStr = Except.ok ip) :
    sendHandShake hp = HandshakeResult.sends
      (encodeVarint (encodeVarint 0 ++ [0x2F] ++ encodeVarint host.length ++ host
          ++ int16BE ip ++ encodeVarint 1).length
        ++ (encodeVarint 0 ++ [0x2F] ++ encodeVarint host.length ++ host
          ++ int16BE ip ++ encodeVarint 1)) := by
  have h0 : encodeVarint 0 = [0] := encodeVarint_le (by norm_num)
  have h1 : encodeVarint 1 = [1] := encodeVarint_le (by norm_num)
  simp [sendHandShake, hsplit, hatoi, makePacket, handshakePayload, h0, h1, protocolVersion]

theorem sendHandShake_wire_witness :
    splitHostPort [108, 111, 99, 97, 108, 104, 111, 115, 116, 58, 50, 53, 53, 54, 53]
        = Except.ok ([108, 111, 99, 97, 108, 104, 111, 115, 116], [50, 53, 53, 54, 53]) ∧
    atoi [50, 53, 53, 54, 53] = Except.ok 25565 ∧
    sendHandShake [108, 111, 99, 97, 108, 104, 111, 115, 116, 58, 50, 53, 53, 54, 53]
      = HandshakeResult.sends
        (encodeVarint (encodeVarint 0 ++ [0x2F]
            ++ encodeVarint (List.length [108, 111, 99, 97, 108, 104, 111, 115, 116])
            ++ [108, 111, 99, 97, 108, 104, 111, 115, 116]
            ++ int16BE 25565 ++ encodeVarint 1).length
          ++ (encodeVarint 0 ++ [0x2F]
            ++ encodeVarint (List.length [108, 111, 99, 97, 108, 104, 111, 115, 116])
            ++ [108, 111, 99, 97, 108, 104, 111, 115, 116]
            ++ int16BE 25565 ++ encodeVarint 1)) :=
  ⟨by rfl, by rfl,
    sendHandShake_wire [108, 111, 99, 97, 108, 104, 111, 115, 116, 58, 50, 53, 53, 54, 53]
      [108, 111, 99, 97, 108, 104, 111, 115, 116] [50, 53, 53, 54, 53] 25565 (by rfl) (by rfl)⟩

/-- Concrete decoded response used by witnesses. -/
def sampleResponse : PingResponse where
  version := { name := [49, 46, 50, 48], protocol := 763 }
  players := { max := 20, online := 3, sample := [] }
  description := Json.str [65]
  favicon := []

/-- C3: for every well-formed inbound stream framed as varint length plus
a payload whose first varint is the packet id and whose second varint is a
declared string length, the status response decoder skips exactly the two
varints and hands the remaining bytes unchanged to the JSON decoder,
returning its decoded `PingResponse`. -/
theorem readPong_wellformed (J : Bytes → Option PingResponse) (pid M : Nat) (body : Bytes)
    (res : PingResponse) (hpid : pid < 2 ^ 64) (hM : M < 2 ^ 64)
    (hN : (encodeVarint pid ++ (encodeVarint M ++ body)).length < 2 ^ 64)
    (hJ : J body = some res) :
    readPong J (makePacket (encodeVarint pid ++ (encodeVarint M ++ body)))
      = (some res, none) := by
  rw [readPong_frame J pid M body hpid hM hN, hJ]

theorem readPong_wellformed_witness :
    (fun b => if b = [123, 125] then some sampleResponse else none) [123, 125]
        = some sampleResponse ∧
    readPong (fun b => if b = [123, 125] then some sampleResponse else none)
        (makePacket (encodeVarint 0 ++ (encodeVarint 2 ++ [123, 125])))
      = (some sampleResponse, none) :=
  ⟨by rfl,
    readPong_wellformed (fun b => if b = [123, 125] then some sampleResponse else none)
      0 2 [123, 125] sampleResponse (by norm_num) (by norm_num)
      (by rw [encodeVarint_le (by norm_num : (0 : Nat) ≤ 127),
            encodeVarint_le (by norm_num : (2 : Nat) ≤ 127)]
          simp)
      (by rfl)⟩

/-- C7: a buffer whose continuation bits never terminate within its first
ten bytes makes `binary.Uvarint` report no consumed bytes (`n ≤ 0`) rather
than a value, strictly negative (overflow) once an eleventh byte exists;
inside `readPong` this surfaces as the packet-id header decoding failure. -/
theorem uvarint_nonterminating (buf pl : Bytes) (J : Bytes → Option PingResponse)
    (hbuf : ∀ b ∈ buf.take 10, 128 ≤ b)
    (hpl : ∀ b ∈ pl.take 10, 128 ≤ b) (hlen : pl.length < 2 ^ 64) :
    (Uvarint buf).2 ≤ 0 ∧ (11 ≤ buf.length → (Uvarint buf).2 < 0) ∧
    readPong J (makePacket pl) = (none, some "could not read packet id") := by
  have hc : (Uvarint buf).2 ≤ 0 ∧ (10 - 0 < buf.length → (Uvarint buf).2 < 0) :=
    uvarintLoop_cont buf 0 0 0 (by omega) (by simpa using hbuf)
  have hc2 : (Uvarint pl).2 ≤ 0 ∧ (10 - 0 < pl.length → (Uvarint pl).2 < 0) :=
    uvarintLoop_cont pl 0 0 0 (by omega) (by simpa using hpl)
  refine ⟨hc.1, fun h => hc.2 (by omega), ?_⟩
  simp only [readPong, makePacket, readUvarint_encode pl hlen]
  rw [if_neg (lt_irrefl _)]
  simp only [List.take_length]
  rw [if_pos hc2.1]

theorem uvarint_nonterminating_witness :
    (∀ b ∈ ([128, 129, 130, 131, 132, 133, 134, 135, 136, 137, 138] : Bytes).take 10, 128 ≤ b) ∧
    (∀ b ∈ ([128, 128] : Bytes).take 10, 128 ≤ b) ∧
    (Uvarint [128, 129, 130, 131, 132, 133, 134, 135, 136, 137, 138]).2 ≤ 0 ∧
    (11 ≤ ([128, 129, 130, 131, 132, 133, 134, 135, 136, 137, 138] : Bytes).length →
      (Uvarint [128, 129, 130, 131, 132, 133, 134, 135, 136, 137, 138]).2 < 0) ∧
    readPong (fun _ => none) (makePacket [128, 128])
      = (none, some "could not read packet id") := by
  have h := uvarint_nonterminating [128, 129, 130, 131, 132, 133, 134, 135, 136, 137, 138]
    [128, 128] (fun _ => none) (by decide) (by decide) (by decide)
  exact ⟨by decide, by decide, h.1, h.2.1, h.2.2⟩

/-- C8: for every inbound packet that is correctly framed and whose two
header varints decode, but whose remaining bytes the JSON decoder rejects,
`readPong` fails with the malformed-body error ("could not read pong
json"), and `Ping` returns exactly that single error with `nil` in place
of a response — no partial `PingResponse`. -/
theorem readPong_malformed_body (J : Bytes → Option PingResponse) (address : Bytes)
    (port : Int) (pid M : Nat) (body host portStr : Bytes) (ip : Int)
    (hpid : pid < 2 ^ 64) (hM : M < 2 ^ 64)
    (hN : (encodeVarint pid ++ (encodeVarint M ++ body)).length < 2 ^ 64)
    (hsplit : splitHostPort (address ++ 58 :: intToDec port) = Except.ok (host, portStr))
    (hatoi : atoi portStr = Except.ok ip)
    (hJ : J body = none) :
    readPong J (makePacket (encodeVarint pid ++ (encodeVarint M ++ body)))
        = (none, some "could not read pong json") ∧
    Ping J address port (makePacket (encodeVarint pid ++ (encodeVarint M ++ body)))
        = PingResult.result none (some "could not read pong json") := by
  have hrp : readPong J (makePacket (encodeVarint pid ++ (encodeVarint M ++ body)))
      = (none, some "could not read pong json") := by
    rw [readPong_frame J pid M body hpid hM hN, hJ]
  refine ⟨hrp, ?_⟩
  simp only [Ping, sendHandShake, hsplit, hatoi, hrp]

theorem readPong_malformed_body_witness :
    splitHostPort ([97] ++ 58 :: intToDec 1) = Except.ok ([97], [49]) ∧
    (fun _ => none : Bytes → Option PingResponse) [123] = none ∧
    readPong (fun _ => none) (makePacket (encodeVarint 0 ++ (encodeVarint 2 ++ [123])))
        = (none, some "could not read pong json") ∧
    Ping (fun _ => none) [97] 1 (makePacket (encodeVarint 0 ++ (encodeVarint 2 ++ [123])))
        = PingResult.result none (some "could not read pong json") := by
  have hsplit : splitHostPort ([97] ++ 58 :: intToDec 1) = Except.ok ([97], [49]) := by
    have hd : intToDec 1 = [49] := by
      rw [intToDec, if_neg (by norm_num), show (1 : Int).toNat = 1 from rfl, natToDec]
      norm_num
    rw [hd]
    rfl
  have h := readPong_malformed_body (fun _ => none) [97] 1 0 2 [123] [97] [49] 1
    (by norm_num) (by norm_num)
    (by rw [encodeVarint_le (by norm_num : (0 : Nat) ≤ 127),
          encodeVarint_le (by norm_num : (2 : Nat) ≤ 127)]
        simp)
    hsplit (by rfl) (by rfl)
  exact ⟨hsplit, by rfl, h.1, h.2⟩

/-- C9: once the two leading varints of a framed payload decode, the
declared string-length value is never compared against the count of
remaining bytes: the decoder's result is identical for any two declared
lengths over the same remaining bytes, and decoding succeeds even when the
declared length disagrees with the actual body length. -/
theorem readPong_ignores_string_length (J : Bytes → Option PingResponse) (pid M M2 : Nat)
    (body : Bytes) (hpid : pid < 2 ^ 64) (hM : M < 2 ^ 64) (hM2 : M2 < 2 ^ 64)
    (hN : (encodeVarint pid ++ (encodeVarint M ++ body)).length < 2 ^ 64)
    (hN2 : (encodeVarint pid ++ (encodeVarint M2 ++ body)).length < 2 ^ 64) :
    readPong J (makePacket (encodeVarint pid ++ (encodeVarint M ++ body)))
        = readPong J (makePacket (encodeVarint pid ++ (encodeVarint M2 ++ body))) ∧
    (∀ res, J body = some res → M ≠ body.length →
      readPong J (makePacket (encodeVarint pid ++ (encodeVarint M ++ body)))
        = (some res, none)) := by
  refine ⟨?_, fun res hJ _ => ?_⟩
  · rw [readPong_frame J pid M body hpid hM hN, readPong_frame J pid M2 body hpid hM2 hN2]
  · rw [readPong_frame J pid M body hpid hM hN, hJ]

theorem readPong_ignores_string_length_witness :
    readPong (fun b => if b = [123, 125] then some sampleResponse else none)
        (makePacket (encodeVarint 0 ++ (encodeVarint 5 ++ [123, 125])))
      = readPong (fun b => if b = [123, 125] then some sampleResponse else none)
        (makePacket (encodeVarint 0 ++ (encodeVarint 77 ++ [123, 125]))) ∧
    readPong (fun b => if b = [123, 125] then some sampleResponse else none)
        (makePacket (encodeVarint 0 ++ (encodeVarint 5 ++ [123, 125])))
      = (some sampleResponse, none) := by
  have h := readPong_ignores_string_length
    (fun b => if b = [123, 125] then some sampleResponse else none) 0 5 77 [123, 125]
    (by norm_num) (by norm_num) (by norm_num)
    (by rw [encodeVarint_le (by norm_num : (0 : Nat) ≤ 127),
          encodeVarint_le (by norm_num : (5 : Nat) ≤ 127)]
        simp)
    (by rw [encodeVarint_le (by norm_num : (0 : Nat) ≤ 127),
          encodeVarint_le (by norm_num : (77 : Nat) ≤ 127)]
        simp)
  exact ⟨h.1, h.2 sampleResponse (by rfl) (by decide)⟩
